import Mathlib

/-!
Verification of the fundraiser library's Bitcoin core (`src/bitcoin.js`).

The development shallowly embeds the pure core of the library:

* `getAddress` — legacy P2PKH address derivation over an abstract pair of
  hash functions (the repository's `hash.js` is not part of the sources under
  verification, so `sha2`/`ripemd160` are taken as parameters constrained to
  produce byte lists), together with a model of the `bs58check`
  base-58-with-checksum codec.
* `createFinalTx` — the transaction builder and signer.  JavaScript numbers
  are modelled exactly as rationals (`ℚ`), with a small sum type `JSNum`
  capturing the `NaN`/`undefined` cases that the fee-rate guard inspects.
  The parts of `bitcoinjs-lib` the builder calls (`Transaction`,
  `script.pubKeyHashOutput`, `script.pubKeyHashInput`,
  `Transaction.byteLength`, `Transaction.hashForSignature`) are embedded
  structurally; the signature-hash digest is represented by its preimage
  (the blanked transaction plus the hash type), standing for the SHA-256d
  of its serialization.
* `sign` — ECDSA signing via the external `secp256k1` bindings; the raw
  signing primitive is a parameter producing an `(R, S)` pair, while the
  normalization (low-S) and DER export steps are embedded concretely.
-/

/-- A JavaScript number as the fee-rate guard sees it: a genuine numeric
value (modelled exactly as a rational), `NaN`, or `undefined` (a missing
argument).  Both non-numeric cases are falsy. -/
inductive JSNum
  | undef
  | nan
  | num (q : ℚ)
deriving DecidableEq

/-- JavaScript truthiness of a number: `0`, `NaN` and `undefined` are falsy. -/
def JSNum.truthy : JSNum → Bool
  | .num q => q ≠ 0
  | _ => false

/-- The JavaScript comparison `x < 0`: false for `NaN` and `undefined`. -/
def JSNum.ltZero : JSNum → Bool
  | .num q => decide (q < 0)
  | _ => false

/-- The numeric value carried by a `JSNum` (only ever read after the guard
has established the `num` case). -/
def JSNum.val : JSNum → ℚ
  | .num q => q
  | _ => 0

/-- `bitcoinjs-lib` script compilation of a single data push (minimal
encoding: a direct push below `OP_PUSHDATA1`, else a length-prefixed push). -/
def pushData (d : List ℕ) : List ℕ :=
  if d.length < 76 then d.length :: d
  else if d.length < 256 then 76 :: d.length :: d
  else 77 :: d.length % 256 :: d.length / 256 :: d

/-- `script.pubKeyHashOutput(hash)`:
`OP_DUP OP_HASH160 <hash> OP_EQUALVERIFY OP_CHECKSIG`. -/
def pubKeyHashOutput (h : List ℕ) : List ℕ :=
  118 :: 169 :: (pushData h ++ [136, 172])

/-- `script.pubKeyHashInput(signature, pubKey)`: `<signature> <pubKey>`. -/
def pubKeyHashInput (sig pub : List ℕ) : List ℕ :=
  pushData sig ++ pushData pub

/-- A transaction input as stored by `bitcoinjs-lib`'s `Transaction`. -/
structure TxInput where
  hash : List ℕ
  index : ℕ
  script : List ℕ
  sequence : ℕ
deriving DecidableEq, Inhabited

/-- A transaction output.  The value is a JavaScript number, hence a
rational: the builder's in-place fee deduction `tx.outs[0].value -= fee`
stays exact in this model. -/
structure TxOutput where
  script : List ℕ
  value : ℚ
deriving DecidableEq, Inhabited

/-- `bitcoinjs-lib`'s legacy `Transaction` (`new Transaction()` gives
version 1, locktime 0, no inputs, no outputs). -/
structure Transaction where
  version : ℕ := 1
  locktime : ℕ := 0
  ins : List TxInput := []
  outs : List TxOutput := []
deriving DecidableEq, Inhabited

/-- `new Transaction()`. -/
def Transaction.empty : Transaction := {}

/-- `tx.addInput(hash, index)`: appends an input with an empty script and
default sequence `0xffffffff`. -/
def Transaction.addInput (tx : Transaction) (hash : List ℕ) (index : ℕ) : Transaction :=
  { tx with ins := tx.ins ++ [{ hash := hash, index := index, script := [], sequence := 4294967295 }] }

/-- `tx.addOutput(scriptPubKey, value)`: appends an output. -/
def Transaction.addOutput (tx : Transaction) (scriptPubKey : List ℕ) (value : ℚ) : Transaction :=
  { tx with outs := tx.outs ++ [{ script := scriptPubKey, value := value }] }

/-- `bufferutils.varIntSize`. -/
def varIntSize (n : ℕ) : ℕ :=
  if n < 253 then 1 else if n ≤ 65535 then 3 else if n ≤ 4294967295 then 5 else 9

/-- Byte length of a var-int-length-prefixed script slice. -/
def varSliceSize (s : List ℕ) : ℕ := varIntSize s.length + s.length

/-- `tx.byteLength()` for a legacy transaction: 8 bytes of version and
locktime, the two var-int counts, 40 bytes plus script slice per input,
8 bytes plus script slice per output. -/
def Transaction.byteLength (tx : Transaction) : ℕ :=
  8 + varIntSize tx.ins.length + varIntSize tx.outs.length
    + (tx.ins.map (fun i => 40 + varSliceSize i.script)).sum
    + (tx.outs.map (fun o => 8 + varSliceSize o.script)).sum

/-- The input-script substitution performed by the legacy SIGHASH_ALL
digest: every input script is blanked, except input `i` which receives the
previous output's locking script. -/
def blankSub (i : ℕ) (s : List ℕ) : List TxInput → List TxInput
  | [] => []
  | inp :: rest =>
    match i with
    | 0 => { inp with script := s } :: rest.map (fun r => { r with script := ([] : List ℕ) })
    | j + 1 => { inp with script := ([] : List ℕ) } :: blankSub j s rest

/-- `Transaction.SIGHASH_ALL`. -/
def SIGHASH_ALL : ℕ := 1

/-- The 32-byte digest fed to ECDSA, represented by its preimage: the
transaction clone produced by `hashForSignature` together with the
appended hash type (standing for the SHA-256d of the clone's
serialization).  `one` is the sentinel digest returned for an
out-of-range input index. -/
inductive SigDigest
  | one
  | digest (tx : Transaction) (hashType : ℕ)
deriving DecidableEq

/-- `tx.hashForSignature(inIndex, prevOutScript, hashType)`, modelled for
the `SIGHASH_ALL` path — the only hash type this repository uses (the
`OP_CODESEPARATOR` filtering is elided: the P2PKH scripts in play contain
none).  All input scripts of a clone are blanked, input `inIndex`'s script
is replaced by `prevOutScript`, and the digest commits to the clone and
the hash type. -/
def Transaction.hashForSignature (tx : Transaction) (inIndex : ℕ) (prevOutScript : List ℕ)
    (hashType : ℕ) : SigDigest :=
  if tx.ins.length ≤ inIndex then .one
  else .digest { tx with ins := blankSub inIndex prevOutScript tx.ins } hashType

/-- The order of the secp256k1 group. -/
def secpOrder : ℕ :=
  115792089237316195423570985008687907852837564279074904382605163141518161494337

/-- `secp256k1.signatureNormalize`: enforce low-S by replacing `S` with
`order − S` whenever `S > order/2`. -/
def signatureNormalize (rs : ℕ × ℕ) : ℕ × ℕ :=
  if secpOrder / 2 < rs.2 then (rs.1, secpOrder - rs.2) else rs

/-- Minimal big-endian byte representation of a natural number. -/
def natToBytes (n : ℕ) : List ℕ := (Nat.digits 256 n).reverse

/-- A DER `INTEGER` body: minimal big-endian bytes, zero-padded in front
when the leading byte would set the sign bit. -/
def derInt (n : ℕ) : List ℕ :=
  let bs := natToBytes n
  let bs := if bs = [] then [0] else bs
  if 128 ≤ bs.headD 0 then 0 :: bs else bs

/-- `secp256k1.signatureExport`: DER encoding of an `(R, S)` pair. -/
def derEncode (rs : ℕ × ℕ) : List ℕ :=
  let r := derInt rs.1
  let s := derInt rs.2
  48 :: (r.length + s.length + 4) :: 2 :: r.length :: (r ++ 2 :: s.length :: s)

/-- The external raw ECDSA signing primitive `secp256k1.sign`: from a
private key and a digest, an `(R, S)` pair.  Taken as a parameter of the
builder. -/
abbrev RawSigner := List ℕ → SigDigest → ℕ × ℕ

/-- The library's `sign(privKey, sigHash)`: raw ECDSA signature,
normalized to low-S, exported to DER. -/
def sign (rawSign : RawSigner) (privKey : List ℕ) (sigHash : SigDigest) : List ℕ :=
  derEncode (signatureNormalize (rawSign privKey sigHash))

/-- A spendable output as delivered by the UTXO source (`tx_hash` and
`script` already decoded from hex to bytes). -/
structure Utxo where
  tx_hash : List ℕ
  tx_output_n : ℕ
  value : ℚ
  script : List ℕ
deriving DecidableEq, Inhabited

/-- The caller's wallet: the hex-decoded Cosmos address bytes and the
Bitcoin key pair. -/
structure Wallet where
  cosmos : List ℕ
  privateKeyBitcoin : List ℕ
  publicKeyBitcoin : List ℕ
deriving DecidableEq, Inhabited

/-- `MINIMUM_AMOUNT`: 60,000 satoshis in development, 1,000,000 otherwise. -/
def MINIMUM_AMOUNT (dev : Bool) : ℚ := if dev then 60000 else 1000000

/-- `ATOMS_PER_BTC`. -/
def ATOMS_PER_BTC : ℚ := 2000

/-- `MINIMUM_OUTPUT`. -/
def MINIMUM_OUTPUT : ℚ := 1000

/-- The 20-byte public-key hash carried by the fixed exodus address
`1EaV33reN8XWWUfs5jkbGMD399vie5KQc4` (its base58check payload without the
version byte); `address.toOutputScript` wraps it in a P2PKH script. -/
def EXODUS_HASH : List ℕ :=
  [0x94, 0xee, 0xc3, 0xbf, 0xbe, 0x6e, 0xab, 0x5a, 0x37, 0x99,
   0xd8, 0x3c, 0x82, 0x98, 0xcd, 0x50, 0x97, 0x94, 0xca, 0x43]

/-- The builder's failure modes (the `throw Error(...)` sites of
`createFinalTx`), with the diagnostic values each message interpolates. -/
inductive BuildError
  | InsufficientAggregateAmount (minimum actual : ℚ)
  | InvalidFeeRate
  | FeeExceedsAvailableFunds (txLength : ℕ) (feeRate feeAmount outputAmount : ℚ)
deriving DecidableEq

/-- The record returned by a successful `createFinalTx`. -/
structure BuildResult where
  tx : Transaction
  paidAmount : ℚ
  feeAmount : ℚ
  atomAmount : ℚ
deriving DecidableEq

/-- `let inputAmount = 0; for (let input of inputs) inputAmount += input.value`. -/
def inputAmount (inputs : List Utxo) : ℚ :=
  inputs.foldl (fun a i => a + i.value) 0

/-- The transaction as assembled before fee handling: one unsigned input
per UTXO (in order), the exodus output carrying the full input sum, and
the Cosmos-address output carrying `MINIMUM_OUTPUT`. -/
def baseTx (wallet : Wallet) (inputs : List Utxo) : Transaction :=
  let t := inputs.foldl (fun t o => t.addInput o.tx_hash o.tx_output_n) Transaction.empty
  let t := t.addOutput (pubKeyHashOutput EXODUS_HASH) (inputAmount inputs)
  t.addOutput (pubKeyHashOutput wallet.cosmos) MINIMUM_OUTPUT

/-- `tx.outs[0].value`. -/
def out0Value (tx : Transaction) : ℚ := (tx.outs.getD 0 default).value

/-- `tx.outs[0].value -= feeAmount`. -/
def deductFee (tx : Transaction) (fee : ℚ) : Transaction :=
  { tx with outs := match tx.outs with
      | [] => []
      | o :: rest => { o with value := o.value - fee } :: rest }

/-- In-place update of input `i`'s script (`tx.ins[i].script = ...`). -/
def setScriptAt (i : ℕ) (s : List ℕ) : List TxInput → List TxInput
  | [] => []
  | inp :: rest =>
    match i with
    | 0 => { inp with script := s } :: rest
    | j + 1 => inp :: setScriptAt j s rest

/-- `tx.ins[i].script = s` on the whole transaction. -/
def setInScript (tx : Transaction) (i : ℕ) (s : List ℕ) : Transaction :=
  { tx with ins := setScriptAt i s tx.ins }

/-- One iteration of the signing loop: compute input `i`'s SIGHASH_ALL
digest against its UTXO's locking script, sign it, append the sighash-type
byte, and install the P2PKH unlocking script. -/
def signStep (rawSign : RawSigner) (privKey pubKey : List ℕ) (utxos : List Utxo)
    (tx : Transaction) (i : ℕ) : Transaction :=
  let prevOut := utxos.getD i default
  let scriptPubKey := prevOut.script
  let sigHash := tx.hashForSignature i scriptPubKey SIGHASH_ALL
  let signature := sign rawSign privKey sigHash ++ [SIGHASH_ALL]
  setInScript tx i (pubKeyHashInput signature pubKey)

/-- The signing loop `for (let i = 0; i < tx.ins.length; i++) ...`,
unrolled by a countdown (`signStep` never changes `tx.ins.length`, so the
iteration count fixed up front agrees with the loop's re-evaluated
condition). -/
def signCount (rawSign : RawSigner) (privKey pubKey : List ℕ) (utxos : List Utxo) :
    Transaction → ℕ → ℕ → Transaction
  | tx, _, 0 => tx
  | tx, i, c + 1 =>
    signCount rawSign privKey pubKey utxos (signStep rawSign privKey pubKey utxos tx i) (i + 1) c

/-- The fee charged by a build at rate `rate`: the byte length of the
still-unsigned two-output transaction times the rate. -/
def feeAmountOf (wallet : Wallet) (inputs : List Utxo) (rate : ℚ) : ℚ :=
  ((baseTx wallet inputs).byteLength : ℚ) * rate

/-- The transaction state at the start of the signing loop: fee deducted
from output 0, all input scripts still empty. -/
def deductedTx (wallet : Wallet) (inputs : List Utxo) (rate : ℚ) : Transaction :=
  deductFee (baseTx wallet inputs) (feeAmountOf wallet inputs rate)

/-- `createFinalTx(wallet, inputs, feeRate)`: validate the aggregate
amount and the fee rate, assemble the two-output transaction, charge the
byte-length-proportional fee against output 0 (failing when the remainder
would dip below `MINIMUM_OUTPUT`), sign every input, and report the
accounting totals. -/
def createFinalTx (dev : Bool) (rawSign : RawSigner) (wallet : Wallet)
    (inputs : List Utxo) (feeRate : JSNum) : Except BuildError BuildResult :=
  if inputAmount inputs < MINIMUM_AMOUNT dev then
    .error (.InsufficientAggregateAmount (MINIMUM_AMOUNT dev) (inputAmount inputs))
  else if !feeRate.truthy || feeRate.ltZero then
    .error .InvalidFeeRate
  else
    let tx := baseTx wallet inputs
    let feeAmount := (tx.byteLength : ℚ) * feeRate.val
    if out0Value tx - feeAmount < MINIMUM_OUTPUT then
      .error (.FeeExceedsAvailableFunds tx.byteLength feeRate.val feeAmount (out0Value tx))
    else
      let tx := deductFee tx feeAmount
      let tx := signCount rawSign wallet.privateKeyBitcoin wallet.publicKeyBitcoin inputs
        tx 0 tx.ins.length
      .ok { tx := tx
            paidAmount := inputAmount inputs
            feeAmount := feeAmount
            atomAmount := out0Value tx * ATOMS_PER_BTC / 100000000 }

/-- The unsigned input created for one spendable output. -/
def mkUnsignedInput (o : Utxo) : TxInput :=
  { hash := o.tx_hash, index := o.tx_output_n, script := [], sequence := 4294967295 }

/-- An input with its unlocking script erased. -/
def TxInput.strip (i : TxInput) : TxInput := { i with script := ([] : List ℕ) }

/-- A transaction with all unlocking scripts erased: the part of the state
the legacy signature hash actually depends on. -/
def Transaction.strip (tx : Transaction) : Transaction :=
  { tx with ins := tx.ins.map TxInput.strip }

/-- `tx.ins[j].script` (the empty script for an out-of-range index). -/
def insScriptAt (tx : Transaction) (j : ℕ) : List ℕ := (tx.ins.getD j default).script

/-- The unlocking script the signing loop installs for input `i`, phrased
against a fixed transaction state `tx4` (the loop's starting state). -/
def expectedScript (rawSign : RawSigner) (privKey pubKey : List ℕ) (utxos : List Utxo)
    (tx4 : Transaction) (i : ℕ) : List ℕ :=
  pubKeyHashInput
    (sign rawSign privKey (tx4.hashForSignature i (utxos.getD i default).script SIGHASH_ALL)
      ++ [SIGHASH_ALL])
    pubKey

/-- The fully signed transaction a successful build returns. -/
def signedTx (rS : RawSigner) (w : Wallet) (inputs : List Utxo) (rate : ℚ) : Transaction :=
  signCount rS w.privateKeyBitcoin w.publicKeyBitcoin inputs
    (deductedTx w inputs rate) 0 (deductedTx w inputs rate).ins.length


/-- Number of leading zero entries of a list. -/
def countLeadZeros (l : List ℕ) : ℕ := (l.takeWhile (fun b => b = 0)).length

/-- The base-58 step underlying `bs58check.encode`: one leading zero digit
(the character `1`) per leading zero byte, then the big-endian base-58
digits of the byte string's big-endian value. -/
def b58encode (payload : List ℕ) : List ℕ :=
  List.replicate (countLeadZeros payload) 0
    ++ (Nat.digits 58 (Nat.ofDigits 256 payload.reverse)).reverse

/-- The base-58 step underlying `bs58check.decode`: one zero byte per
leading zero digit, then the minimal big-endian bytes of the digit
string's value. -/
def b58decodeRaw (digits : List ℕ) : List ℕ :=
  List.replicate (countLeadZeros digits) 0
    ++ (Nat.digits 256 (Nat.ofDigits 58 digits.reverse)).reverse

/-- bs58check's 4-byte checksum: the first four bytes of the double
application of SHA-256 (supplied as the parameter `sha2`) to the payload. -/
def bs58checksum (sha2 : List ℕ → List ℕ) (payload : List ℕ) : List ℕ :=
  (sha2 (sha2 payload)).take 4

/-- `bs58check.encode(payload)`: append the checksum and base-58 encode. -/
def bs58encodeCheck (sha2 : List ℕ → List ℕ) (payload : List ℕ) : List ℕ :=
  b58encode (payload ++ bs58checksum sha2 payload)

/-- The address codec's failure mode. -/
inductive DecodeError
  | InvalidChecksum
deriving DecidableEq

/-- `bs58check.decode(digits)`: base-58 decode, split off the trailing four
checksum bytes, recompute and compare, failing with `InvalidChecksum` on a
mismatch. -/
def bs58decodeCheck (sha2 : List ℕ → List ℕ) (digits : List ℕ) : Except DecodeError (List ℕ) :=
  let buf := b58decodeRaw digits
  let payload := buf.take (buf.length - 4)
  let cks := buf.drop (buf.length - 4)
  if cks = bs58checksum sha2 payload then .ok payload else .error .InvalidChecksum

/-- `getAddress(pub)`: base58check-encode the version byte `0x00` followed
by the hash160 `ripemd160(sha2(pub))` (the two hash functions come from
the repository's `hash.js`, outside the verified sources, and are passed
as parameters; `concat(byte(0x00), h)` is list cons/append). -/
def getAddress (sha2 ripemd160 : List ℕ → List ℕ) (pub : List ℕ) : List ℕ :=
  bs58encodeCheck sha2 (0 :: ripemd160 (sha2 pub))

/-- A concrete spendable output used to exercise the builder. -/
def utxo0 : Utxo :=
  { tx_hash := List.replicate 32 0, tx_output_n := 1, value := 100000,
    script := pubKeyHashOutput (List.replicate 20 2) }

/-- A concrete wallet used to exercise the builder. -/
def wallet0 : Wallet :=
  { cosmos := List.replicate 20 7, privateKeyBitcoin := List.replicate 32 1,
    publicKeyBitcoin := List.replicate 33 3 }

/-- A concrete stand-in for the external raw ECDSA signer. -/
def rawSign0 : RawSigner := fun _ _ => (5, 6)


theorem inputAmount_aux (l : List Utxo) : ∀ c : ℚ, l.foldl (fun a i => a + i.value) c
    = c + (l.map (fun i => i.value)).sum := by
  induction l with
  | nil => intro c; simp
  | cons x xs ih => intro c; simp [List.foldl_cons, ih, add_assoc]

theorem inputAmount_eq_sum (l : List Utxo) :
    inputAmount l = (l.map (fun i => i.value)).sum := by
  simpa using inputAmount_aux l 0

theorem foldl_addInput (l : List Utxo) : ∀ t : Transaction,
    l.foldl (fun t o => t.addInput o.tx_hash o.tx_output_n) t
      = { t with ins := t.ins ++ l.map mkUnsignedInput } := by
  induction l with
  | nil => intro t; simp
  | cons x xs ih =>
    intro t
    rw [List.foldl_cons, ih]
    simp [Transaction.addInput, mkUnsignedInput]

theorem baseTx_eq (w : Wallet) (l : List Utxo) :
    baseTx w l =
      { version := 1, locktime := 0, ins := l.map mkUnsignedInput,
        outs := [{ script := pubKeyHashOutput EXODUS_HASH, value := inputAmount l },
                 { script := pubKeyHashOutput w.cosmos, value := MINIMUM_OUTPUT }] } := by
  simp [baseTx, foldl_addInput, Transaction.addOutput, Transaction.empty]

theorem TxInput.strip_fields {a b : TxInput} (h : a.strip = b.strip) :
    a.hash = b.hash ∧ a.index = b.index ∧ a.sequence = b.sequence := by
  cases a; cases b
  simp only [TxInput.strip, TxInput.mk.injEq] at h
  exact ⟨h.1, h.2.1, h.2.2.2⟩

theorem setScriptAt_map_strip (s : List ℕ) : ∀ (l : List TxInput) (i : ℕ),
    (setScriptAt i s l).map TxInput.strip = l.map TxInput.strip := by
  intro l
  induction l with
  | nil => intro i; simp [setScriptAt]
  | cons x xs ih =>
    intro i
    match i with
    | 0 => simp [setScriptAt, TxInput.strip]
    | j + 1 => simp [setScriptAt, ih]

theorem strip_setInScript (tx : Transaction) (i : ℕ) (s : List ℕ) :
    (setInScript tx i s).strip = tx.strip := by
  simp [setInScript, Transaction.strip, setScriptAt_map_strip]

theorem blankSub_congr (i : ℕ) (s : List ℕ) : ∀ {l l' : List TxInput},
    l.map TxInput.strip = l'.map TxInput.strip → blankSub i s l = blankSub i s l' := by
  intro l
  induction l generalizing i with
  | nil => intro l' h; cases l' <;> simp_all [blankSub]
  | cons x xs ih =>
    intro l' h
    cases l' with
    | nil => simp at h
    | cons y ys =>
      simp only [List.map_cons, List.cons.injEq] at h
      obtain ⟨hxy, hrest⟩ := h
      obtain ⟨h1, h2, h3⟩ := TxInput.strip_fields hxy
      match i with
      | 0 =>
        have hx : ({ x with script := s } : TxInput) = { y with script := s } := by
          cases x; cases y; simp_all
        have ht : xs.map (fun r => ({ r with script := ([] : List ℕ) } : TxInput))
            = ys.map (fun r => { r with script := ([] : List ℕ) }) := by
          simpa [TxInput.strip] using hrest
        simp only [blankSub]
        rw [hx, ht]
      | j + 1 =>
        have hx : ({ x with script := ([] : List ℕ) } : TxInput) = { y with script := [] } := by
          cases x; cases y; simp_all
        simp only [blankSub]
        rw [hx, ih j hrest]

theorem hashForSignature_congr {tx tx' : Transaction} (h : tx.strip = tx'.strip)
    (i : ℕ) (s : List ℕ) (ht : ℕ) :
    tx.hashForSignature i s ht = tx'.hashForSignature i s ht := by
  have hv : tx.version = tx'.version := by
    simpa [Transaction.strip] using congrArg Transaction.version h
  have hl : tx.locktime = tx'.locktime := by
    simpa [Transaction.strip] using congrArg Transaction.locktime h
  have ho : tx.outs = tx'.outs := by
    simpa [Transaction.strip] using congrArg Transaction.outs h
  have hi : tx.ins.map TxInput.strip = tx'.ins.map TxInput.strip := by
    simpa [Transaction.strip] using congrArg Transaction.ins h
  have hlen : tx.ins.length = tx'.ins.length := by
    have := congrArg List.length hi
    simpa using this
  simp only [Transaction.hashForSignature, hlen, hv, hl, ho, blankSub_congr i s hi]

theorem strip_outs {t t' : Transaction} (h : t.strip = t'.strip) : t.outs = t'.outs := by
  simpa [Transaction.strip] using congrArg Transaction.outs h

theorem strip_ins_map {t t' : Transaction} (h : t.strip = t'.strip) :
    t.ins.map TxInput.strip = t'.ins.map TxInput.strip := by
  simpa [Transaction.strip] using congrArg Transaction.ins h

theorem strip_ins_length {t t' : Transaction} (h : t.strip = t'.strip) :
    t.ins.length = t'.ins.length := by
  simpa using congrArg List.length (strip_ins_map h)

theorem strip_ins_getD {t t' : Transaction} (h : t.strip = t'.strip) (j : ℕ) :
    (t.ins.getD j default).strip = (t'.ins.getD j default).strip :=
  calc (t.ins.getD j default).strip
      = (t.ins.map TxInput.strip).getD j (TxInput.strip default) :=
        (List.getD_map t.ins default TxInput.strip).symm
    _ = (t'.ins.map TxInput.strip).getD j (TxInput.strip default) := by rw [strip_ins_map h]
    _ = (t'.ins.getD j default).strip := List.getD_map t'.ins default TxInput.strip

theorem setScriptAt_getD_self (s : List ℕ) : ∀ (l : List TxInput) (i : ℕ), i < l.length →
    ((setScriptAt i s l).getD i default).script = s := by
  intro l
  induction l with
  | nil => intro i hi; simp at hi
  | cons x xs ih =>
    intro i hi
    match i with
    | 0 => simp [setScriptAt]
    | j + 1 =>
      simp only [setScriptAt, List.getD_cons_succ]
      exact ih j (by simpa using hi)

theorem setScriptAt_getD_other (s : List ℕ) : ∀ (l : List TxInput) (i j : ℕ), j ≠ i →
    (setScriptAt i s l).getD j default = l.getD j default := by
  intro l
  induction l with
  | nil => intro i j _; simp [setScriptAt]
  | cons x xs ih =>
    intro i j hne
    match i, j with
    | 0, 0 => exact absurd rfl hne
    | 0, jj + 1 => simp [setScriptAt]
    | ii + 1, 0 => simp [setScriptAt]
    | ii + 1, jj + 1 =>
      simp only [setScriptAt, List.getD_cons_succ]
      exact ih ii jj (by omega)

theorem insScriptAt_set_self (tx : Transaction) (i : ℕ) (s : List ℕ) (h : i < tx.ins.length) :
    insScriptAt (setInScript tx i s) i = s :=
  setScriptAt_getD_self s tx.ins i h

theorem insScriptAt_set_other (tx : Transaction) (i j : ℕ) (s : List ℕ) (h : j ≠ i) :
    insScriptAt (setInScript tx i s) j = insScriptAt tx j := by
  unfold insScriptAt setInScript
  rw [setScriptAt_getD_other s tx.ins i j h]

theorem signStep_eq {tx tx4 : Transaction} (rS : RawSigner) (priv pub : List ℕ)
    (utxos : List Utxo) (i : ℕ) (h : tx.strip = tx4.strip) :
    signStep rS priv pub utxos tx i = setInScript tx i (expectedScript rS priv pub utxos tx4 i) := by
  simp only [signStep, expectedScript, hashForSignature_congr h]

/-- Invariant of the signing loop: the skeleton never changes, indices
outside the processed window keep their scripts, and every processed index
carries the script computed against the loop's starting skeleton. -/
theorem signCount_spec (rS : RawSigner) (priv pub : List ℕ) (utxos : List Utxo)
    (tx4 : Transaction) : ∀ (c i : ℕ) (tx : Transaction), tx.strip = tx4.strip →
    (signCount rS priv pub utxos tx i c).strip = tx4.strip
    ∧ (∀ j, j < i ∨ i + c ≤ j →
        insScriptAt (signCount rS priv pub utxos tx i c) j = insScriptAt tx j)
    ∧ (∀ j, i ≤ j → j < i + c → j < tx4.ins.length →
        insScriptAt (signCount rS priv pub utxos tx i c) j
          = expectedScript rS priv pub utxos tx4 j) := by
  intro c
  induction c with
  | zero =>
    intro i tx h
    exact ⟨h, fun j _ => rfl, fun j h1 h2 _ => absurd h2 (by omega)⟩
  | succ c ih =>
    intro i tx h
    have hlen : tx.ins.length = tx4.ins.length := strip_ins_length h
    have hstep := signStep_eq rS priv pub utxos i h
    have hstrip : (setInScript tx i (expectedScript rS priv pub utxos tx4 i)).strip
        = tx4.strip := by rw [strip_setInScript]; exact h
    obtain ⟨ihs, ihout, ihin⟩ := ih (i + 1)
      (setInScript tx i (expectedScript rS priv pub utxos tx4 i)) hstrip
    have hunfold : signCount rS priv pub utxos tx i (c + 1)
        = signCount rS priv pub utxos
            (setInScript tx i (expectedScript rS priv pub utxos tx4 i)) (i + 1) c := by
      rw [signCount, hstep]
    refine ⟨by rw [hunfold]; exact ihs, ?_, ?_⟩
    · intro j hj
      rw [hunfold]
      have hj' : j < i + 1 ∨ (i + 1) + c ≤ j := by omega
      rw [ihout j hj']
      exact insScriptAt_set_other tx i j _ (by omega)
    · intro j hij hjc hjlen
      rw [hunfold]
      by_cases hji : j = i
      · subst hji
        rw [ihout j (Or.inl (by omega))]
        exact insScriptAt_set_self tx j _ (by omega)
      · exact ihin j (by omega) (by omega) hjlen

theorem signedTx_strip (rS : RawSigner) (w : Wallet) (inputs : List Utxo) (rate : ℚ) :
    (signedTx rS w inputs rate).strip = (deductedTx w inputs rate).strip :=
  (signCount_spec rS w.privateKeyBitcoin w.publicKeyBitcoin inputs
    (deductedTx w inputs rate) (deductedTx w inputs rate).ins.length 0
    (deductedTx w inputs rate) rfl).1

theorem signedTx_script (rS : RawSigner) (w : Wallet) (inputs : List Utxo) (rate : ℚ)
    (j : ℕ) (hj : j < (deductedTx w inputs rate).ins.length) :
    insScriptAt (signedTx rS w inputs rate) j
      = expectedScript rS w.privateKeyBitcoin w.publicKeyBitcoin inputs
          (deductedTx w inputs rate) j :=
  (signCount_spec rS w.privateKeyBitcoin w.publicKeyBitcoin inputs
    (deductedTx w inputs rate) (deductedTx w inputs rate).ins.length 0
    (deductedTx w inputs rate) rfl).2.2 j (Nat.zero_le j) (by omega) hj

theorem deductedTx_eq (w : Wallet) (l : List Utxo) (rate : ℚ) :
    deductedTx w l rate =
      { version := 1, locktime := 0, ins := l.map mkUnsignedInput,
        outs := [{ script := pubKeyHashOutput EXODUS_HASH,
                   value := inputAmount l - feeAmountOf w l rate },
                 { script := pubKeyHashOutput w.cosmos, value := MINIMUM_OUTPUT }] } := by
  rw [deductedTx, deductFee, baseTx_eq]

theorem createFinalTx_ok_elim {dev : Bool} {rS : RawSigner} {w : Wallet}
    {inputs : List Utxo} {fr : JSNum} {r : BuildResult}
    (h : createFinalTx dev rS w inputs fr = .ok r) :
    MINIMUM_AMOUNT dev ≤ inputAmount inputs
    ∧ fr.truthy = true ∧ fr.ltZero = false
    ∧ MINIMUM_OUTPUT ≤ out0Value (baseTx w inputs) - feeAmountOf w inputs fr.val
    ∧ r = { tx := signedTx rS w inputs fr.val,
            paidAmount := inputAmount inputs,
            feeAmount := feeAmountOf w inputs fr.val,
            atomAmount := out0Value (signedTx rS w inputs fr.val) * ATOMS_PER_BTC / 100000000 } := by
  simp only [createFinalTx] at h
  split_ifs at h with h1 h2 h3
  refine ⟨le_of_not_lt h1, ?_, ?_, ?_, ?_⟩
  · cases hb : fr.truthy with
    | true => rfl
    | false => rw [hb] at h2; simp at h2
  · cases hb : fr.ltZero with
    | true => rw [hb] at h2; simp at h2
    | false => rfl
  · rw [not_lt] at h3
    exact h3
  · injection h with h
    rw [← h]
    rfl

theorem createFinalTx_ok_intro (dev : Bool) (rS : RawSigner) (w : Wallet)
    (inputs : List Utxo) (q : ℚ)
    (h1 : MINIMUM_AMOUNT dev ≤ inputAmount inputs) (h2 : 0 < q)
    (h3 : MINIMUM_OUTPUT ≤ out0Value (baseTx w inputs) - feeAmountOf w inputs q) :
    createFinalTx dev rS w inputs (.num q) =
      .ok { tx := signedTx rS w inputs q,
            paidAmount := inputAmount inputs,
            feeAmount := feeAmountOf w inputs q,
            atomAmount := out0Value (signedTx rS w inputs q) * ATOMS_PER_BTC / 100000000 } := by
  have h1' : ¬ inputAmount inputs < MINIMUM_AMOUNT dev := not_lt.mpr h1
  have ht : (JSNum.num q).truthy = true := by
    simp [JSNum.truthy]; exact ne_of_gt h2
  have hz : (JSNum.num q).ltZero = false := by
    simp [JSNum.ltZero]; exact le_of_lt h2
  have h3' : ¬ out0Value (baseTx w inputs) - ((baseTx w inputs).byteLength : ℚ) * q
      < MINIMUM_OUTPUT := not_lt.mpr h3
  simp only [createFinalTx, ht, hz, JSNum.val, Bool.not_true, Bool.false_or, if_neg h1']
  rw [if_neg (by simp : ¬ (false = true)), if_neg h3']
  rfl

theorem out0_baseTx (w : Wallet) (l : List Utxo) :
    out0Value (baseTx w l) = inputAmount l := by
  rw [baseTx_eq]; rfl

theorem signedTx_outs (rS : RawSigner) (w : Wallet) (l : List Utxo) (rate : ℚ) :
    (signedTx rS w l rate).outs =
      [{ script := pubKeyHashOutput EXODUS_HASH, value := inputAmount l - feeAmountOf w l rate },
       { script := pubKeyHashOutput w.cosmos, value := MINIMUM_OUTPUT }] := by
  have h := strip_outs (signedTx_strip rS w l rate)
  rw [h, deductedTx_eq]

theorem out0_signedTx (rS : RawSigner) (w : Wallet) (l : List Utxo) (rate : ℚ) :
    out0Value (signedTx rS w l rate) = inputAmount l - feeAmountOf w l rate := by
  rw [out0Value, signedTx_outs]; rfl

theorem deductedTx_ins_length (w : Wallet) (l : List Utxo) (rate : ℚ) :
    (deductedTx w l rate).ins.length = l.length := by
  rw [deductedTx_eq]; simp

theorem signedTx_ins_length (rS : RawSigner) (w : Wallet) (l : List Utxo) (rate : ℚ) :
    (signedTx rS w l rate).ins.length = l.length := by
  rw [strip_ins_length (signedTx_strip rS w l rate), deductedTx_ins_length]

theorem signedTx_ins_ref (rS : RawSigner) (w : Wallet) (l : List Utxo) (rate : ℚ)
    (j : ℕ) (hj : j < l.length) :
    ((signedTx rS w l rate).ins.getD j default).hash = (l.getD j default).tx_hash
    ∧ ((signedTx rS w l rate).ins.getD j default).index = (l.getD j default).tx_output_n := by
  have hs := strip_ins_getD (signedTx_strip rS w l rate) j
  have hd : (deductedTx w l rate).ins.getD j default = mkUnsignedInput (l.getD j default) := by
    rw [deductedTx_eq]
    have hj' : j < (l.map mkUnsignedInput).length := by simpa using hj
    rw [List.getD_eq_getElem _ _ hj', List.getD_eq_getElem _ _ hj]
    simp
  rw [hd] at hs
  obtain ⟨hh, hi, _⟩ := TxInput.strip_fields hs
  exact ⟨hh, hi⟩

/-- Claim C1: for every non-empty list of spendable outputs whose values
sum to at least the minimum threshold, with a fee rate > 0 and a
post-deduction output-0 value at least the minimum-output floor, the
build succeeds and the returned transaction has exactly one input per
spendable output and exactly 2 outputs, input `j` referencing
`spendableOutputs[j]`'s transaction id and output index in the supplied
order. -/
theorem C1_build_shape (dev : Bool) (rS : RawSigner) (w : Wallet) (inputs : List Utxo) (q : ℚ)
    (_hne : inputs ≠ [])
    (hmin : MINIMUM_AMOUNT dev ≤ inputAmount inputs)
    (hq : 0 < q)
    (hfloor : MINIMUM_OUTPUT ≤ inputAmount inputs - feeAmountOf w inputs q) :
    ∃ r, createFinalTx dev rS w inputs (.num q) = .ok r
      ∧ r.tx.ins.length = inputs.length
      ∧ r.tx.outs.length = 2
      ∧ ∀ j, j < inputs.length →
          (r.tx.ins.getD j default).hash = (inputs.getD j default).tx_hash
          ∧ (r.tx.ins.getD j default).index = (inputs.getD j default).tx_output_n := by
  have hfloor' : MINIMUM_OUTPUT ≤ out0Value (baseTx w inputs) - feeAmountOf w inputs q := by
    rw [out0_baseTx]; exact hfloor
  refine ⟨_, createFinalTx_ok_intro dev rS w inputs q hmin hq hfloor', ?_, ?_, ?_⟩
  · exact signedTx_ins_length rS w inputs q
  · show (signedTx rS w inputs q).outs.length = 2
    rw [signedTx_outs]
    rfl
  · intro j hj
    exact signedTx_ins_ref rS w inputs q j hj

theorem C1_witness : ∃ r, createFinalTx true rawSign0 wallet0 [utxo0] (.num 1) = .ok r
    ∧ r.tx.ins.length = [utxo0].length
    ∧ r.tx.outs.length = 2
    ∧ ∀ j, j < [utxo0].length →
        (r.tx.ins.getD j default).hash = ([utxo0].getD j default).tx_hash
        ∧ (r.tx.ins.getD j default).index = ([utxo0].getD j default).tx_output_n := by
  have hlen : (baseTx wallet0 [utxo0]).byteLength = 119 := by decide
  refine C1_build_shape true rawSign0 wallet0 [utxo0] 1 (by simp) ?_ one_pos ?_
  · norm_num [MINIMUM_AMOUNT, inputAmount, utxo0]
  · rw [feeAmountOf, hlen]
    norm_num [inputAmount, utxo0, MINIMUM_OUTPUT]

/-- Claim C2 (amended): for every successful build, the returned
`feeAmount` equals the byte length of the transaction serialized with all
inputs still unsigned (after both outputs are appended) multiplied by the
fee rate exactly — with no truncation to an integer. -/
theorem C2_feeAmount_exact {dev : Bool} {rS : RawSigner} {w : Wallet}
    {inputs : List Utxo} {fr : JSNum} {r : BuildResult}
    (h : createFinalTx dev rS w inputs fr = .ok r) :
    r.feeAmount = ((baseTx w inputs).byteLength : ℚ) * fr.val := by
  obtain ⟨-, -, -, -, hr⟩ := createFinalTx_ok_elim h
  rw [hr]
  rfl

theorem C2_witness : ∃ r, createFinalTx true rawSign0 wallet0 [utxo0] (.num 2) = .ok r
    ∧ r.feeAmount = ((baseTx wallet0 [utxo0]).byteLength : ℚ) * (JSNum.num 2).val := by
  have hlen : (baseTx wallet0 [utxo0]).byteLength = 119 := by decide
  have h := createFinalTx_ok_intro true rawSign0 wallet0 [utxo0] 2
    (by norm_num [MINIMUM_AMOUNT, inputAmount, utxo0]) (by norm_num)
    (by rw [out0_baseTx, feeAmountOf, hlen]; norm_num [inputAmount, utxo0, MINIMUM_OUTPUT])
  exact ⟨_, h, C2_feeAmount_exact h⟩

/-- Claim C2, counterexample to the claim as stated: at a fractional fee
rate of 1/2 satoshi per byte the build succeeds with
`feeAmount = 119 × (1/2) = 59.5`, which is not an integer number of
satoshis, so `feeAmount` is NOT the truncated product (the truncation
would be 59). -/
theorem C2_counterexample :
    (∃ r, createFinalTx true rawSign0 wallet0 [utxo0] (.num (1/2)) = .ok r
        ∧ r.feeAmount = 119 / 2)
    ∧ ¬ ∃ n : ℤ, (119 / 2 : ℚ) = (n : ℚ) := by
  constructor
  · have hlen : (baseTx wallet0 [utxo0]).byteLength = 119 := by decide
    have h := createFinalTx_ok_intro true rawSign0 wallet0 [utxo0] (1/2)
      (by norm_num [MINIMUM_AMOUNT, inputAmount, utxo0]) (by norm_num)
      (by rw [out0_baseTx, feeAmountOf, hlen]; norm_num [inputAmount, utxo0, MINIMUM_OUTPUT])
    refine ⟨_, h, ?_⟩
    show feeAmountOf wallet0 [utxo0] ((1 : ℚ)/2) = 119 / 2
    rw [feeAmountOf, hlen]
    norm_num
  · rintro ⟨n, hn⟩
    have h2 : (119 : ℚ) = 2 * (n : ℚ) := by linarith
    have h3 : (119 : ℤ) = 2 * n := by exact_mod_cast h2
    omega

/-- Claim C3: a successful build's output-0 value equals the input sum
minus `feeAmount` and is at least the minimum-output floor; whenever the
guards pass but the sum minus the fee would fall below the floor, the
build fails with `FeeExceedsAvailableFunds` carrying the byte length, the
rate, the computed fee and the pre-fee output value, returning no
transaction. -/
theorem C3_fee_deduction (dev : Bool) (rS : RawSigner) (w : Wallet) (inputs : List Utxo)
    (fr : JSNum) :
    (∀ r, createFinalTx dev rS w inputs fr = .ok r →
        out0Value r.tx = inputAmount inputs - r.feeAmount
        ∧ MINIMUM_OUTPUT ≤ out0Value r.tx)
    ∧ (∀ q : ℚ, fr = .num q → 0 < q → MINIMUM_AMOUNT dev ≤ inputAmount inputs →
        inputAmount inputs - feeAmountOf w inputs q < MINIMUM_OUTPUT →
        createFinalTx dev rS w inputs fr
          = .error (.FeeExceedsAvailableFunds (baseTx w inputs).byteLength q
              (feeAmountOf w inputs q) (inputAmount inputs))) := by
  constructor
  · intro r h
    obtain ⟨-, -, -, hfloor, hr⟩ := createFinalTx_ok_elim h
    rw [out0_baseTx] at hfloor
    subst hr
    constructor
    · show out0Value (signedTx rS w inputs fr.val) = inputAmount inputs - feeAmountOf w inputs fr.val
      exact out0_signedTx rS w inputs fr.val
    · show MINIMUM_OUTPUT ≤ out0Value (signedTx rS w inputs fr.val)
      rw [out0_signedTx]
      exact hfloor
  · rintro q rfl hq hmin hlow
    have ht : (JSNum.num q).truthy = true := by
      simp [JSNum.truthy]; exact ne_of_gt hq
    have hz : (JSNum.num q).ltZero = false := by
      simp [JSNum.ltZero]; exact le_of_lt hq
    have hlow' : out0Value (baseTx w inputs) - ((baseTx w inputs).byteLength : ℚ) * q
        < MINIMUM_OUTPUT := by
      rw [out0_baseTx]
      exact hlow
    simp only [createFinalTx, ht, hz, JSNum.val, Bool.not_true, Bool.false_or,
      if_neg (not_lt.mpr hmin)]
    rw [if_neg (by simp : ¬ (false = true)), if_pos hlow']
    rw [out0_baseTx]
    rfl

theorem C3_witness :
    ((∀ r, createFinalTx true rawSign0 wallet0 [utxo0] (.num 2) = .ok r →
        out0Value r.tx = inputAmount [utxo0] - r.feeAmount
        ∧ MINIMUM_OUTPUT ≤ out0Value r.tx)
      ∧ createFinalTx true rawSign0 wallet0 [utxo0] (.num 1000)
          = .error (.FeeExceedsAvailableFunds (baseTx wallet0 [utxo0]).byteLength 1000
              (feeAmountOf wallet0 [utxo0] 1000) (inputAmount [utxo0]))) := by
  have hlen : (baseTx wallet0 [utxo0]).byteLength = 119 := by decide
  refine ⟨(C3_fee_deduction true rawSign0 wallet0 [utxo0] (.num 2)).1, ?_⟩
  refine (C3_fee_deduction true rawSign0 wallet0 [utxo0] (.num 1000)).2 1000 rfl
    (by norm_num) (by norm_num [MINIMUM_AMOUNT, inputAmount, utxo0]) ?_
  rw [feeAmountOf, hlen]
  norm_num [inputAmount, utxo0, MINIMUM_OUTPUT]

/-- Claim C4: a build whose input values sum to less than the configured
minimum aggregate threshold (60,000 in development, 1,000,000 otherwise;
the empty list sums to 0) fails with `InsufficientAggregateAmount`
carrying the required and actual totals, and a build whose sum meets the
threshold never produces that error. -/
theorem C4_aggregate_threshold (dev : Bool) (rS : RawSigner) (w : Wallet) (inputs : List Utxo)
    (fr : JSNum) :
    (inputAmount inputs < MINIMUM_AMOUNT dev →
      createFinalTx dev rS w inputs fr
        = .error (.InsufficientAggregateAmount (MINIMUM_AMOUNT dev) (inputAmount inputs)))
    ∧ (MINIMUM_AMOUNT dev ≤ inputAmount inputs →
        ∀ m a : ℚ, createFinalTx dev rS w inputs fr ≠ .error (.InsufficientAggregateAmount m a))
    ∧ MINIMUM_AMOUNT true = 60000 ∧ MINIMUM_AMOUNT false = 1000000
    ∧ inputAmount [] = 0 := by
  refine ⟨?_, ?_, rfl, rfl, rfl⟩
  · intro h
    simp only [createFinalTx, if_pos h]
  · intro hge m a hc
    simp only [createFinalTx, if_neg (not_lt.mpr hge)] at hc
    split_ifs at hc <;> simp_all

theorem C4_witness :
    createFinalTx false rawSign0 wallet0 [] (.num 1)
      = .error (.InsufficientAggregateAmount 1000000 0) := by
  have h := (C4_aggregate_threshold false rawSign0 wallet0 [] (.num 1)).1
    (by norm_num [inputAmount, MINIMUM_AMOUNT])
  simpa [inputAmount, MINIMUM_AMOUNT] using h

/-- Claim C5: given the aggregate-amount check passed, the build fails
with `InvalidFeeRate` if and only if the fee rate is not a number
strictly greater than 0 — a missing rate, `NaN`, 0 and negative rates are
all rejected by the guard before any fee arithmetic. -/
theorem C5_fee_rate_guard (dev : Bool) (rS : RawSigner) (w : Wallet) (inputs : List Utxo)
    (fr : JSNum) (hmin : MINIMUM_AMOUNT dev ≤ inputAmount inputs) :
    createFinalTx dev rS w inputs fr = .error .InvalidFeeRate
      ↔ ¬ ∃ q : ℚ, fr = .num q ∧ 0 < q := by
  constructor
  · intro h
    rintro ⟨q, rfl, hq⟩
    have ht : (JSNum.num q).truthy = true := by
      simp [JSNum.truthy]; exact ne_of_gt hq
    have hz : (JSNum.num q).ltZero = false := by
      simp [JSNum.ltZero]; exact le_of_lt hq
    simp only [createFinalTx, ht, hz, Bool.not_true, Bool.false_or,
      if_neg (not_lt.mpr hmin)] at h
    rw [if_neg (by simp : ¬ (false = true))] at h
    split_ifs at h
    simp_all
  · intro hne
    have hguard : (!fr.truthy || fr.ltZero) = true := by
      cases fr with
      | undef => rfl
      | nan => rfl
      | num q =>
        have hq : q ≤ 0 := not_lt.mp (fun hq => hne ⟨q, rfl, hq⟩)
        rcases eq_or_lt_of_le hq with heq | hlt
        · simp [JSNum.truthy, heq]
        · simp [JSNum.ltZero, hlt]
    simp only [createFinalTx, hguard, if_neg (not_lt.mpr hmin)]
    rfl

theorem C5_witness :
    (createFinalTx true rawSign0 wallet0 [utxo0] (.num 0) = .error .InvalidFeeRate)
    ∧ (createFinalTx true rawSign0 wallet0 [utxo0] (.num (-3)) = .error .InvalidFeeRate)
    ∧ (createFinalTx true rawSign0 wallet0 [utxo0] .nan = .error .InvalidFeeRate)
    ∧ (createFinalTx true rawSign0 wallet0 [utxo0] .undef = .error .InvalidFeeRate)
    ∧ ¬ (createFinalTx true rawSign0 wallet0 [utxo0] (.num 3) = .error .InvalidFeeRate) := by
  have hmin : MINIMUM_AMOUNT true ≤ inputAmount [utxo0] := by
    norm_num [MINIMUM_AMOUNT, inputAmount, utxo0]
  refine ⟨?_, ?_, ?_, ?_, ?_⟩
  · exact (C5_fee_rate_guard true rawSign0 wallet0 [utxo0] (.num 0) hmin).mpr
      (by rintro ⟨q, hq, hpos⟩; cases hq; exact lt_irrefl 0 hpos)
  · exact (C5_fee_rate_guard true rawSign0 wallet0 [utxo0] (.num (-3)) hmin).mpr
      (by rintro ⟨q, hq, hpos⟩; cases hq; norm_num at hpos)
  · exact (C5_fee_rate_guard true rawSign0 wallet0 [utxo0] .nan hmin).mpr
      (by rintro ⟨q, hq, hpos⟩; cases hq)
  · exact (C5_fee_rate_guard true rawSign0 wallet0 [utxo0] .undef hmin).mpr
      (by rintro ⟨q, hq, hpos⟩; cases hq)
  · intro h
    exact ((C5_fee_rate_guard true rawSign0 wallet0 [utxo0] (.num 3) hmin).mp h)
      ⟨3, rfl, by norm_num⟩

theorem signatureNormalize_le (rs : ℕ × ℕ) (h : rs.2 < secpOrder) :
    (signatureNormalize rs).2 ≤ secpOrder / 2 := by
  unfold signatureNormalize
  split_ifs with hgt
  · show secpOrder - rs.2 ≤ secpOrder / 2
    omega
  · exact not_lt.mp hgt

theorem signatureNormalize_high (rs : ℕ × ℕ) (h : secpOrder / 2 < rs.2) :
    signatureNormalize rs = (rs.1, secpOrder - rs.2) := if_pos h

theorem signatureNormalize_low (rs : ℕ × ℕ) (h : rs.2 ≤ secpOrder / 2) :
    signatureNormalize rs = rs := if_neg (not_lt.mpr h)

/-- Claim C6: for every successful build and every input index `j`, the
digest signed for input `j` is the legacy SIGHASH_ALL signature hash of
the transaction state in which output 0 has already had the fee deducted,
computed with input `j`'s previous-output locking script substituted in,
and the unlocking script installed for input `j` is the P2PKH pair (DER
signature with the sighash-type byte appended, public key). -/
theorem C6_sighash (dev : Bool) (rS : RawSigner) (w : Wallet) (inputs : List Utxo)
    (fr : JSNum) (r : BuildResult)
    (h : createFinalTx dev rS w inputs fr = .ok r) (j : ℕ) (hj : j < inputs.length) :
    insScriptAt r.tx j
      = pubKeyHashInput
          (sign rS w.privateKeyBitcoin
              ((deductedTx w inputs fr.val).hashForSignature j
                (inputs.getD j default).script SIGHASH_ALL)
            ++ [SIGHASH_ALL])
          w.publicKeyBitcoin := by
  obtain ⟨-, -, -, -, hr⟩ := createFinalTx_ok_elim h
  subst hr
  show insScriptAt (signedTx rS w inputs fr.val) j = _
  rw [signedTx_script rS w inputs fr.val j (by rw [deductedTx_ins_length]; exact hj)]
  rfl

theorem C6_witness : ∃ r, createFinalTx true rawSign0 wallet0 [utxo0] (.num 3) = .ok r
    ∧ insScriptAt r.tx 0
        = pubKeyHashInput
            (sign rawSign0 wallet0.privateKeyBitcoin
                ((deductedTx wallet0 [utxo0] (JSNum.num 3).val).hashForSignature 0
                  ([utxo0].getD 0 default).script SIGHASH_ALL)
              ++ [SIGHASH_ALL])
            wallet0.publicKeyBitcoin := by
  have hlen : (baseTx wallet0 [utxo0]).byteLength = 119 := by decide
  have h := createFinalTx_ok_intro true rawSign0 wallet0 [utxo0] 3
    (by norm_num [MINIMUM_AMOUNT, inputAmount, utxo0]) (by norm_num)
    (by rw [out0_baseTx, feeAmountOf, hlen]; norm_num [inputAmount, utxo0, MINIMUM_OUTPUT])
  exact ⟨_, h, C6_sighash true rawSign0 wallet0 [utxo0] (.num 3) _ h 0 (by norm_num)⟩

/-- Claim C7: for every signed input of a successful build (given that the
raw ECDSA signer returns an S value below the curve order), the signature
placed in the unlocking script is the low-S normalization of the raw
signature — S is kept when at most half the order and replaced by
order − S otherwise, so the final S is always ≤ order/2 — DER-encoded with
the single sighash-type byte appended. -/
theorem C7_low_s (dev : Bool) (rS : RawSigner) (w : Wallet) (inputs : List Utxo)
    (fr : JSNum) (r : BuildResult)
    (hS : ∀ d : SigDigest, (rS w.privateKeyBitcoin d).2 < secpOrder)
    (h : createFinalTx dev rS w inputs fr = .ok r) (j : ℕ) (hj : j < inputs.length) :
    insScriptAt r.tx j
      = pubKeyHashInput
          (derEncode (signatureNormalize (rS w.privateKeyBitcoin
              ((deductedTx w inputs fr.val).hashForSignature j
                (inputs.getD j default).script SIGHASH_ALL)))
            ++ [SIGHASH_ALL])
          w.publicKeyBitcoin
    ∧ (signatureNormalize (rS w.privateKeyBitcoin
          ((deductedTx w inputs fr.val).hashForSignature j
            (inputs.getD j default).script SIGHASH_ALL))).2 ≤ secpOrder / 2
    ∧ (∀ rs : ℕ × ℕ, secpOrder / 2 < rs.2 → signatureNormalize rs = (rs.1, secpOrder - rs.2))
    ∧ (∀ rs : ℕ × ℕ, rs.2 ≤ secpOrder / 2 → signatureNormalize rs = rs) := by
  obtain ⟨-, -, -, -, hr⟩ := createFinalTx_ok_elim h
  subst hr
  refine ⟨?_, signatureNormalize_le _ (hS _), signatureNormalize_high, signatureNormalize_low⟩
  show insScriptAt (signedTx rS w inputs fr.val) j = _
  rw [signedTx_script rS w inputs fr.val j (by rw [deductedTx_ins_length]; exact hj)]
  rfl

theorem C7_witness : ∃ r, createFinalTx true rawSign0 wallet0 [utxo0] (.num 4) = .ok r
    ∧ insScriptAt r.tx 0
        = pubKeyHashInput
            (derEncode (signatureNormalize (rawSign0 wallet0.privateKeyBitcoin
                ((deductedTx wallet0 [utxo0] (JSNum.num 4).val).hashForSignature 0
                  ([utxo0].getD 0 default).script SIGHASH_ALL)))
              ++ [SIGHASH_ALL])
            wallet0.publicKeyBitcoin
    ∧ (signatureNormalize (rawSign0 wallet0.privateKeyBitcoin
          ((deductedTx wallet0 [utxo0] (JSNum.num 4).val).hashForSignature 0
            ([utxo0].getD 0 default).script SIGHASH_ALL))).2 ≤ secpOrder / 2 := by
  have hlen : (baseTx wallet0 [utxo0]).byteLength = 119 := by decide
  have hS : ∀ d : SigDigest, (rawSign0 wallet0.privateKeyBitcoin d).2 < secpOrder := by
    intro d
    show (6 : ℕ) < secpOrder
    norm_num [secpOrder]
  have h := createFinalTx_ok_intro true rawSign0 wallet0 [utxo0] 4
    (by norm_num [MINIMUM_AMOUNT, inputAmount, utxo0]) (by norm_num)
    (by rw [out0_baseTx, feeAmountOf, hlen]; norm_num [inputAmount, utxo0, MINIMUM_OUTPUT])
  obtain ⟨h1, h2, -, -⟩ := C7_low_s true rawSign0 wallet0 [utxo0] (.num 4) _ hS h 0 (by norm_num)
  exact ⟨_, h, h1, h2⟩

/-- Claim C8: for every successful build, `paidAmount` equals the exact
sum of the supplied input values, and `atomAmount` (the credited amount)
equals output 0's post-fee value times `ATOMS_PER_BTC = 2000` divided by
`1e8`, computed exactly in rational arithmetic. -/
theorem C8_accounting (dev : Bool) (rS : RawSigner) (w : Wallet) (inputs : List Utxo)
    (fr : JSNum) (r : BuildResult)
    (h : createFinalTx dev rS w inputs fr = .ok r) :
    r.paidAmount = (inputs.map (fun i => i.value)).sum
    ∧ r.atomAmount = out0Value r.tx * ATOMS_PER_BTC / 100000000
    ∧ out0Value r.tx = inputAmount inputs - r.feeAmount
    ∧ ATOMS_PER_BTC = 2000 := by
  obtain ⟨-, -, -, -, hr⟩ := createFinalTx_ok_elim h
  subst hr
  exact ⟨inputAmount_eq_sum inputs, rfl, out0_signedTx rS w inputs fr.val, rfl⟩

theorem C8_witness : ∃ r, createFinalTx true rawSign0 wallet0 [utxo0] (.num 5) = .ok r
    ∧ r.paidAmount = ([utxo0].map (fun i => i.value)).sum
    ∧ r.atomAmount = out0Value r.tx * ATOMS_PER_BTC / 100000000
    ∧ out0Value r.tx = inputAmount [utxo0] - r.feeAmount := by
  have hlen : (baseTx wallet0 [utxo0]).byteLength = 119 := by decide
  have h := createFinalTx_ok_intro true rawSign0 wallet0 [utxo0] 5
    (by norm_num [MINIMUM_AMOUNT, inputAmount, utxo0]) (by norm_num)
    (by rw [out0_baseTx, feeAmountOf, hlen]; norm_num [inputAmount, utxo0, MINIMUM_OUTPUT])
  obtain ⟨h1, h2, h3, -⟩ := C8_accounting true rawSign0 wallet0 [utxo0] (.num 5) _ h
  exact ⟨_, h, h1, h2, h3⟩

/-- Claim C10: for every successful build, the two output values sum to
`paidAmount − feeAmount + 1000`: the fixed 1000-satoshi secondary output
is funded neither by a deduction from output 0 nor by the reported
`feeAmount`, so the transaction's implied on-chain miner fee
(inputs minus outputs) is `feeAmount − 1000`, not `feeAmount`. -/
theorem C10_outputs_sum (dev : Bool) (rS : RawSigner) (w : Wallet) (inputs : List Utxo)
    (fr : JSNum) (r : BuildResult)
    (h : createFinalTx dev rS w inputs fr = .ok r) :
    (r.tx.outs.map (fun o => o.value)).sum = r.paidAmount - r.feeAmount + 1000
    ∧ r.paidAmount - (r.tx.outs.map (fun o => o.value)).sum = r.feeAmount - 1000 := by
  obtain ⟨-, -, -, -, hr⟩ := createFinalTx_ok_elim h
  subst hr
  have hsum : ((signedTx rS w inputs fr.val).outs.map (fun o => o.value)).sum
      = inputAmount inputs - feeAmountOf w inputs fr.val + 1000 := by
    rw [signedTx_outs]
    show (inputAmount inputs - feeAmountOf w inputs fr.val) + (MINIMUM_OUTPUT + 0)
        = inputAmount inputs - feeAmountOf w inputs fr.val + 1000
    norm_num [MINIMUM_OUTPUT]
  constructor
  · exact hsum
  · show inputAmount inputs - ((signedTx rS w inputs fr.val).outs.map (fun o => o.value)).sum
        = feeAmountOf w inputs fr.val - 1000
    rw [hsum]
    ring

theorem C10_witness : ∃ r, createFinalTx true rawSign0 wallet0 [utxo0] (.num 6) = .ok r
    ∧ (r.tx.outs.map (fun o => o.value)).sum = r.paidAmount - r.feeAmount + 1000 := by
  have hlen : (baseTx wallet0 [utxo0]).byteLength = 119 := by decide
  have h := createFinalTx_ok_intro true rawSign0 wallet0 [utxo0] 6
    (by norm_num [MINIMUM_AMOUNT, inputAmount, utxo0]) (by norm_num)
    (by rw [out0_baseTx, feeAmountOf, hlen]; norm_num [inputAmount, utxo0, MINIMUM_OUTPUT])
  exact ⟨_, h, (C10_outputs_sum true rawSign0 wallet0 [utxo0] (.num 6) _ h).1⟩

theorem ofDigits_replicate_zero (b : ℕ) : ∀ z : ℕ, Nat.ofDigits b (List.replicate z 0) = 0 := by
  intro z
  induction z with
  | zero => rfl
  | succ n ih => simp [List.replicate_succ, Nat.ofDigits_cons, ih]

theorem clz_cons_zero (t : List ℕ) : countLeadZeros (0 :: t) = countLeadZeros t + 1 := by
  simp [countLeadZeros, List.takeWhile_cons]

theorem clz_replicate_append (l : List ℕ) : ∀ z : ℕ,
    countLeadZeros (List.replicate z 0 ++ l) = z + countLeadZeros l := by
  intro z
  induction z with
  | zero => simp
  | succ n ih =>
    have hshape : List.replicate (n + 1) 0 ++ l = 0 :: (List.replicate n 0 ++ l) := by
      simp [List.replicate_succ]
    rw [hshape, clz_cons_zero, ih]
    omega

theorem clz_cons_ne (r : ℕ) (t : List ℕ) (hr : r ≠ 0) : countLeadZeros (r :: t) = 0 := by
  simp [countLeadZeros, List.takeWhile_cons, hr]

theorem takeWhile_zero_eq_replicate (bs : List ℕ) :
    bs.takeWhile (fun x => x = 0) = List.replicate (countLeadZeros bs) 0 := by
  induction bs with
  | nil => rfl
  | cons b t ih =>
    by_cases hb : b = 0
    · subst hb
      simp only [countLeadZeros, List.takeWhile_cons]
      simpa [List.replicate_succ] using ih
    · simp [countLeadZeros, List.takeWhile_cons, hb]

theorem dropWhile_zero_head (bs : List ℕ) :
    bs.dropWhile (fun x => x = 0) = []
    ∨ ∃ r t, bs.dropWhile (fun x => x = 0) = r :: t ∧ r ≠ 0 := by
  induction bs with
  | nil => exact Or.inl rfl
  | cons b t ih =>
    by_cases hb : b = 0
    · simpa [List.dropWhile_cons, hb] using ih
    · exact Or.inr ⟨b, t, by simp [List.dropWhile_cons, hb], hb⟩

theorem b58_split (bs : List ℕ) :
    List.replicate (countLeadZeros bs) 0 ++ bs.dropWhile (fun x => x = 0) = bs := by
  rw [← takeWhile_zero_eq_replicate]
  exact List.takeWhile_append_dropWhile (fun x => decide (x = 0)) bs

/-- Base-58 round trip: decoding an encoded byte string recovers it
exactly, leading zero bytes included. -/
theorem b58decodeRaw_b58encode (bs : List ℕ) (hb : ∀ x ∈ bs, x < 256) :
    b58decodeRaw (b58encode bs) = bs := by
  have hsplit := b58_split bs
  have hofbs : Nat.ofDigits 256 bs.reverse
      = Nat.ofDigits 256 (bs.dropWhile (fun x => x = 0)).reverse := by
    conv_lhs => rw [← hsplit]
    rw [List.reverse_append, List.reverse_replicate, Nat.ofDigits_append,
      ofDigits_replicate_zero]
    simp
  rcases dropWhile_zero_head bs with hnil | ⟨r0, rt, hcons, hr0⟩
  · have hn0 : Nat.ofDigits 256 bs.reverse = 0 := by
      rw [hofbs, hnil]
      rfl
    have hbs : bs = List.replicate (countLeadZeros bs) 0 := by
      conv_lhs => rw [← hsplit]
      rw [hnil, List.append_nil]
    unfold b58encode b58decodeRaw
    rw [hn0]
    simp only [Nat.digits_zero, List.reverse_nil, List.append_nil]
    have h1 : countLeadZeros (List.replicate (countLeadZeros bs) 0) = countLeadZeros bs := by
      simpa using clz_replicate_append [] (countLeadZeros bs)
    rw [h1, List.reverse_replicate, ofDigits_replicate_zero]
    simp only [Nat.digits_zero, List.reverse_nil, List.append_nil]
    exact hbs.symm
  · set rest := bs.dropWhile (fun x => x = 0) with hrest
    have hbrest : ∀ x ∈ rest.reverse, x < 256 := by
      intro x hx
      apply hb
      rw [← hsplit]
      exact List.mem_append_right _ (by simpa using hx)
    have hrev : rest.reverse = rt.reverse ++ [r0] := by rw [hcons]; simp
    have hrevne : rest.reverse ≠ [] := by rw [hrev]; simp
    have hlast : ∀ h : rest.reverse ≠ [], rest.reverse.getLast h ≠ 0 := by
      intro h
      have : rest.reverse.getLast h = r0 := by
        simp only [hrev]
        exact List.getLast_append_singleton rt.reverse
      rw [this]
      exact hr0
    have hdig : Nat.digits 256 (Nat.ofDigits 256 rest.reverse) = rest.reverse :=
      Nat.digits_ofDigits 256 (by norm_num) _ hbrest hlast
    have hnpos : Nat.ofDigits 256 rest.reverse ≠ 0 := by
      intro h0
      rw [h0, Nat.digits_zero] at hdig
      exact hrevne hdig.symm
    unfold b58encode b58decodeRaw
    rw [hofbs]
    have hd58ne : Nat.digits 58 (Nat.ofDigits 256 rest.reverse) ≠ [] :=
      Nat.digits_ne_nil_iff_ne_zero.mpr hnpos
    have hclz2 : countLeadZeros ((Nat.digits 58 (Nat.ofDigits 256 rest.reverse)).reverse) = 0 := by
      cases hdd : (Nat.digits 58 (Nat.ofDigits 256 rest.reverse)).reverse with
      | nil => exact absurd (by simpa using congrArg List.reverse hdd) hd58ne
      | cons a t =>
        have hsome : (Nat.digits 58 (Nat.ofDigits 256 rest.reverse)).getLast? = some a := by
          rw [← List.head?_reverse, hdd]
          rfl
        have hg := Nat.getLast_digit_ne_zero 58 hnpos
        rw [List.getLast?_eq_getLast_of_ne_nil hd58ne] at hsome
        have ha : a ≠ 0 := by
          injection hsome with hsome
          rw [← hsome]
          exact hg
        exact clz_cons_ne a t ha
    rw [clz_replicate_append, hclz2, Nat.add_zero]
    rw [List.reverse_append, List.reverse_reverse, List.reverse_replicate,
      Nat.ofDigits_append, Nat.ofDigits_digits, ofDigits_replicate_zero]
    rw [mul_zero, Nat.add_zero, hdig, List.reverse_reverse]
    exact hsplit

/-- Claim C9: for every public key byte string, decoding the address
produced by `getAddress` succeeds with a valid checksum and recovers
exactly the version byte `0x00` followed by the same 20-byte hash160
digest (`ripemd160` of `sha2` of the public key) that `getAddress`
embedded; decoding any digit string whose embedded checksum does not
match the recomputed one fails with `InvalidChecksum`.  The two hash
functions are abstract byte-valued functions (the repository's `hash.js`
is outside the verified sources). -/
theorem C9_address_roundtrip (sha2 ripemd160 : List ℕ → List ℕ) (pub : List ℕ)
    (hsha : ∀ x : List ℕ, ∀ b ∈ sha2 x, b < 256)
    (hshalen : ∀ x : List ℕ, 4 ≤ (sha2 x).length)
    (hrip : ∀ x : List ℕ, ∀ b ∈ ripemd160 x, b < 256)
    (hriplen : ∀ x : List ℕ, (ripemd160 x).length = 20) :
    bs58decodeCheck sha2 (getAddress sha2 ripemd160 pub) = .ok (0 :: ripemd160 (sha2 pub))
    ∧ (ripemd160 (sha2 pub)).length = 20
    ∧ ∀ digits : List ℕ,
        (b58decodeRaw digits).drop ((b58decodeRaw digits).length - 4)
          ≠ bs58checksum sha2 ((b58decodeRaw digits).take ((b58decodeRaw digits).length - 4)) →
        bs58decodeCheck sha2 digits = .error .InvalidChecksum := by
  refine ⟨?_, hriplen _, ?_⟩
  · have hbytes : ∀ x ∈ (0 :: ripemd160 (sha2 pub))
        ++ bs58checksum sha2 (0 :: ripemd160 (sha2 pub)), x < 256 := by
      intro x hx
      rcases List.mem_append.mp hx with h | h
      · rcases List.mem_cons.mp h with h0 | hm
        · rw [h0]; norm_num
        · exact hrip _ x hm
      · exact hsha _ x (List.take_subset 4 _ h)
    have hrt := b58decodeRaw_b58encode _ hbytes
    have hcl : (bs58checksum sha2 (0 :: ripemd160 (sha2 pub))).length = 4 := by
      rw [bs58checksum, List.length_take]
      exact min_eq_left (hshalen _)
    have hlen : ((0 :: ripemd160 (sha2 pub))
        ++ bs58checksum sha2 (0 :: ripemd160 (sha2 pub))).length - 4
        = (0 :: ripemd160 (sha2 pub)).length := by
      rw [List.length_append, hcl]
      omega
    simp only [bs58decodeCheck, getAddress, bs58encodeCheck]
    rw [hrt, hlen, List.take_left, List.drop_left, if_pos rfl]
  · intro digits hne
    simp only [bs58decodeCheck]
    rw [if_neg hne]

theorem C9_witness :
    bs58decodeCheck (fun _ => [1, 2, 3, 4])
        (getAddress (fun _ => [1, 2, 3, 4]) (fun _ => List.replicate 20 5) [9])
      = .ok (0 :: List.replicate 20 5)
    ∧ bs58decodeCheck (fun _ => [1, 2, 3, 4]) [1] = .error .InvalidChecksum := by
  obtain ⟨h1, -, h3⟩ := C9_address_roundtrip (fun _ => [1, 2, 3, 4])
    (fun _ => List.replicate 20 5) [9]
    (by intro x b hb; fin_cases hb <;> norm_num)
    (by intro x; norm_num)
    (by intro x b hb; simp [List.eq_of_mem_replicate hb])
    (by intro x; simp)
  refine ⟨h1, h3 [1] ?_⟩
  have hraw : b58decodeRaw [1] = [1] := by
    simp [b58decodeRaw, countLeadZeros, Nat.ofDigits, Nat.digits_def']
  rw [hraw]
  simp [bs58checksum]
